import Mathlib

/-!
Verification of the statistical signal-measure routines of
`qrsdel/utils/signal_measures.py`.

The Python module provides:
* `mode`      : histogram-based mode of a 1-D signal fragment;
* `mvkurtosis`, `mvskewness` : multivariate moments of a variables-by-observations
  matrix, computed through a whitening transform built from an eigendecomposition
  of the population covariance matrix;
* `get_peaks` : local-extrema detection by sign changes of the first difference;
* `characterize_baseline` : window expansion to a minimum analysis length and a
  single fragment request to an external signal source.

Samples are modelled as exact rationals (the Python floats arising in these
routines are produced by ring operations and exact halving, so the rational
model reproduces the real-arithmetic values).  The multivariate routines use
real matrices because the whitening step takes square roots of eigenvalues.
The configuration constants `BL_MARGIN` and `BL_MIN_LEN` live in a module that
is not part of the sources; they are taken as parameters (`margin`, `L`).
-/

namespace SignalMeasures

open Matrix

/-- Truncation toward zero, the semantics of Python `int(x)` on a float. -/
def pyInt (q : ℚ) : ℤ := if q < 0 then ⌈q⌉ else ⌊q⌋

/-! ### mode (`signal_measures.py`, lines 31-36)

`nbins = int((signal.max() - signal.min()) / C.BL_MARGIN) or 1`
`hist  = np.histogram(signal, nbins)`
`peak  = hist[0].argmax()`
`return hist[1][peak] + (hist[1][peak + 1] - hist[1][peak]) / 2.0`
-/

/-- Minimum of a signal fragment (`signal.min()`); 0 on the empty list, which
the source never passes. -/
def listMin : List ℚ → ℚ
  | [] => 0
  | a :: rest => rest.foldl min a

/-- Maximum of a signal fragment (`signal.max()`). -/
def listMax : List ℚ → ℚ
  | [] => 0
  | a :: rest => rest.foldl max a

/-- Bin count `int((max - min) / BL_MARGIN) or 1`.  Python `or 1` replaces a
zero count (falsy) by 1.  With `min <= max` and `margin > 0` the quotient is
nonnegative, so the `Int.toNat` loses nothing. -/
def nbinsOf (margin mn mx : ℚ) : ℕ :=
  let k := pyInt ((mx - mn) / margin)
  if k = 0 then 1 else k.toNat

/-- Bin edge `i` of the `np.histogram` uniform binning: `linspace(mn, mx, nbins+1)`,
whose entry `i` is `mn + (mx - mn) * i / nbins`. -/
def histEdge (mn mx : ℚ) (nbins i : ℕ) : ℚ := mn + (mx - mn) * i / nbins

/-- Bin index of a sample under `np.histogram` uniform binning in exact
arithmetic: bin `i` is `[edge i, edge (i+1))`, the last bin is closed on the
right, so values at `mx` land in bin `nbins - 1`.  (For a zero-width range
numpy widens the edges by 0.5 on each side; every sample then equals both
bounds and lands in bin 0, as here.) -/
def binIdx (mn mx : ℚ) (nbins : ℕ) (x : ℚ) : ℕ :=
  if mx ≤ mn then 0
  else min (nbins - 1) (⌊(x - mn) / (mx - mn) * nbins⌋).toNat

/-- Histogram counts (`hist[0]`): entry `i` counts the samples in bin `i`. -/
def histCounts (mn mx : ℚ) (nbins : ℕ) (sig : List ℚ) : List ℕ :=
  (List.range nbins).map fun i => (sig.filter fun x => binIdx mn mx nbins x = i).length

/-- Index of the first maximal entry, the semantics of `np.argmax` (ties broken
by the lowest index). -/
def argmaxIdx : List ℕ → ℕ
  | [] => 0
  | a :: rest =>
    let r := argmaxIdx rest
    if a < rest.getD r 0 then r + 1 else 0

/-- The `mode` function: histogram the fragment, pick the bin with the highest
count, and return the midpoint of its two edges
(`hist[1][peak] + (hist[1][peak+1] - hist[1][peak]) / 2.0`).
In the degenerate case `mn = mx` numpy widens the single bin to
`[mn - 0.5, mx + 0.5]`; its midpoint is again `mn`, which is also the value
produced by the unwidened edges used here, so the returned value agrees. -/
def mode (margin : ℚ) (sig : List ℚ) : ℚ :=
  let mn := listMin sig
  let mx := listMax sig
  let nbins := nbinsOf margin mn mx
  let counts := histCounts mn mx nbins sig
  let peak := argmaxIdx counts
  histEdge mn mx nbins peak + (histEdge mn mx nbins (peak + 1) - histEdge mn mx nbins peak) / 2

/-! ### get_peaks (`signal_measures.py`, lines 87-119) -/

/-- Sign of a rational, the value set of `np.sign`. -/
def sign (x : ℚ) : ℤ := if x < 0 then -1 else if x = 0 then 0 else 1

/-- First differences `np.diff(arr)`: entry `i` is `arr[i+1] - arr[i]`. -/
def diffs (l : List ℚ) : List ℚ := List.zipWith (fun a b => b - a) l l.tail

/-- First nonzero entry of a sign list, 0 when there is none.  Models the scan
`i = 1; while sdif[i] == 0: i += 1` that resolves a leading zero run; the
source only runs it when a nonzero entry exists (the all-zero case returned
earlier), so the default is never the returned value there. -/
def firstNonzeroSign (s : List ℤ) : ℤ := (s.find? fun a => decide (a ≠ 0)).getD 0

/-- Left-to-right forward fill of zeros, seeded with an already resolved value:
the loop `for i in range(1, len(sdif)): if sdif[i] == 0: sdif[i] = sdif[i-1]`.
The loop reads the entry it just wrote, which is exactly this recursion. -/
def ffill : ℤ → List ℤ → List ℤ
  | _, [] => []
  | prev, a :: rest =>
    (if a = 0 then prev else a) :: ffill (if a = 0 then prev else a) rest

/-- Full zero-resolution of a sign-of-difference sequence: a leading zero takes
the first posterior nonzero sign (`sdif[0] = sdif[i]`), then the forward-fill
loop resolves the remaining zeros. -/
def resolveSigns (s : List ℤ) : List ℤ :=
  match s with
  | [] => []
  | a :: rest =>
    let a0 := if a = 0 then firstNonzeroSign rest else a
    a0 :: ffill a0 rest

/-- Indices reported by `np.where(sdif[1:] != sdif[:-1])[0] + 1`: the positions
`i ≥ 1` of the resolved sign sequence whose entry differs from its
predecessor. -/
def changeIndices (r : List ℤ) : List ℕ :=
  (List.range r.length).filter fun i => decide (1 ≤ i ∧ r.getD i 0 ≠ r.getD (i - 1) 0)

/-- The `get_peaks` function.  `none` models the `ValueError` raised for arrays
shorter than three samples; `some []` is the early return for an all-zero
derivative. -/
def get_peaks (arr : List ℚ) : Option (List ℕ) :=
  if arr.length < 3 then none
  else if ((diffs arr).map sign).all (fun a => decide (a = 0)) then some []
  else some (changeIndices (resolveSigns ((diffs arr).map sign)))

/-! ### characterize_baseline (`signal_measures.py`, lines 122-153)

`assert beg >= 0 and end >= beg`
`if end - beg < C.BL_MIN_LEN:`
`    center = beg + (end - beg) / 2.0`
`    beg = max(0, int(center - C.BL_MIN_LEN / 2))`
`    end = int(center + C.BL_MIN_LEN / 2)`
`signal = get_signal_fragment(beg, end, lead=lead)[0]`

The lead is passed through to the fragment fetch unchanged and plays no role
in the computed range, so it is omitted from the embedding.
-/

/-- Midpoint `center = beg + (end - beg) / 2.0` of the requested window. -/
def blCenter (beg e : ℤ) : ℚ := (beg : ℚ) + ((e : ℚ) - (beg : ℚ)) / 2

/-- Window actually used for the fragment request: expanded and re-centered
when shorter than the minimum analysis length `L` (`BL_MIN_LEN`), unchanged
otherwise. -/
def characterize_window (L beg e : ℤ) : ℤ × ℤ :=
  if e - beg < L then
    (max 0 (pyInt (blCenter beg e - (L : ℚ) / 2)),
     pyInt (blCenter beg e + (L : ℚ) / 2))
  else (beg, e)

/-- Range passed to `get_signal_fragment` by `characterize_baseline`, or `none`
when the `assert beg >= 0 and end >= beg` guard fires first — on that path no
fragment request is made, which is what the `none` records. -/
def characterize_baseline_request (L beg e : ℤ) : Option (ℤ × ℤ) :=
  if 0 ≤ beg ∧ beg ≤ e then some (characterize_window L beg e) else none

/-! ### Multivariate moments (`signal_measures.py`, lines 47-84)

Both `mvkurtosis` and `mvskewness` run the same pipeline:

`n = np.size(arr, 1)`
`med = np.mean(arr, 1)`
`s = np.cov(arr) * (n - 1) / n`
`lamb, v = np.linalg.eig(s)`
`si12 = np.dot(np.dot(v, np.diag(1.0 / np.sqrt(lamb))), np.transpose(v))`
`medrep = np.transpose(np.repeat(np.asmatrix(med), n, 0))`
`xs = np.dot(np.transpose(arr - medrep), si12)`
`r = np.dot(xs, np.transpose(xs))`

The eigendecomposition `lamb, v` returned by `np.linalg.eig` is not computable
in exact arithmetic, so the embedding takes it as an argument; the theorems
hypothesise exactly what the decomposition of a real symmetric matrix
provides (`s = v * diagonal lamb * vᵀ` with `vᵀ * v = 1`).
-/

/-- Mean vector across observations (`np.mean(arr, 1)`). -/
noncomputable def med {p n : ℕ} (arr : Matrix (Fin p) (Fin n) ℝ) : Fin p → ℝ :=
  fun i => (∑ j, arr i j) / n

/-- Population covariance `np.cov(arr) * (n - 1) / n`: the unbiased sample
covariance (denominator `n - 1`) rescaled by `(n - 1) / n`, which for `n ≥ 2`
is the `1 / n`-normalized covariance written here.  (For `n = 1` numpy's
division by `n - 1 = 0` produces NaN; the claims under verification assume a
positive-definite covariance, which forces `n ≥ 2`.) -/
noncomputable def covPop {p n : ℕ} (arr : Matrix (Fin p) (Fin n) ℝ) :
    Matrix (Fin p) (Fin p) ℝ :=
  Matrix.of fun i j => (∑ k, (arr i k - med arr i) * (arr j k - med arr j)) / n

/-- Inverse square root factor
`si12 = v * diag(1 / sqrt(lamb)) * vᵀ` built from the eigendecomposition. -/
noncomputable def si12 {p : ℕ} (lamb : Fin p → ℝ) (v : Matrix (Fin p) (Fin p) ℝ) :
    Matrix (Fin p) (Fin p) ℝ :=
  v * Matrix.diagonal (fun i => (Real.sqrt (lamb i))⁻¹) * vᵀ

/-- Centered data `arr - medrep` (each column has the mean vector subtracted). -/
noncomputable def centered {p n : ℕ} (arr : Matrix (Fin p) (Fin n) ℝ) :
    Matrix (Fin p) (Fin n) ℝ :=
  Matrix.of fun i j => arr i j - med arr i

/-- Whitened observations `xs = (arr - medrep)ᵀ * si12` (one row per
observation). -/
noncomputable def whitened {p n : ℕ} (arr : Matrix (Fin p) (Fin n) ℝ)
    (lamb : Fin p → ℝ) (v : Matrix (Fin p) (Fin p) ℝ) : Matrix (Fin n) (Fin p) ℝ :=
  (centered arr)ᵀ * si12 lamb v

/-- Gram matrix of the whitened observations `r = xs * xsᵀ`. -/
noncomputable def gramR {p n : ℕ} (arr : Matrix (Fin p) (Fin n) ℝ)
    (lamb : Fin p → ℝ) (v : Matrix (Fin p) (Fin p) ℝ) : Matrix (Fin n) (Fin n) ℝ :=
  whitened arr lamb v * (whitened arr lamb v)ᵀ

/-- Value of the multivariate kurtosis on the non-raising path
(`np.sum(np.diag(r) ** 2) / n`); `mvkurtosisE` below is the full model with
the error path of the pipeline. -/
noncomputable def mvkurtosis {p n : ℕ} (arr : Matrix (Fin p) (Fin n) ℝ)
    (lamb : Fin p → ℝ) (v : Matrix (Fin p) (Fin p) ℝ) : ℝ :=
  (∑ i, (gramR arr lamb v i i) ^ 2) / n

/-- Value of the multivariate skewness on the non-raising path
(`np.sum(r ** 3) / (n * n)`, elementwise cube summed over all entries);
`mvskewnessE` below is the full model with the error path of the pipeline. -/
noncomputable def mvskewness {p n : ℕ} (arr : Matrix (Fin p) (Fin n) ℝ)
    (lamb : Fin p → ℝ) (v : Matrix (Fin p) (Fin p) ℝ) : ℝ :=
  (∑ i, ∑ j, (gramR arr lamb v i j) ^ 3) / (n * n)

/-- Errors of the multivariate pipeline: `numericalInstability` is the failure
the specification asks for; `linAlgError` is the `numpy.linalg.LinAlgError`
the pipeline can actually raise at the `np.linalg.eig(s)` call. -/
inductive MVError
  | numericalInstability
  | linAlgError

/-- Shape-driven error condition of the `np.linalg.eig(s)` call in the source:
with a single variable (`p = 1`) `np.cov` squeezes the 1-by-1 covariance to a
0-dimensional array and `eig` raises `LinAlgError` (array must be at least
two-dimensional); with several variables but at most one observation
(`2 ≤ p`, `n ≤ 1`) the `np.cov` normalisation divides by `n - 1 ≤ 0`, the
covariance entries are NaN, and `eig`'s finiteness check raises
`LinAlgError`.  For `p ≥ 2` and `n ≥ 2` on finite data the covariance is a
finite `p`-by-`p` matrix and no statement of the pipeline raises: in
particular a singular covariance is not detected, `1.0 / np.sqrt(lamb)`
merely emits a runtime warning and propagates Inf/NaN into the returned
value. -/
def mvEigRaises (p n : ℕ) : Prop := p = 1 ∨ (2 ≤ p ∧ n ≤ 1)

instance (p n : ℕ) : Decidable (mvEigRaises p n) := by
  unfold mvEigRaises
  infer_instance

/-- Outcome of `mvkurtosis`, with the error channel of the pipeline explicit:
`LinAlgError` on the shapes where `np.linalg.eig` raises, otherwise the
ordinary returned value — the source has no guard, assertion or raise of its
own around the whitening step. -/
noncomputable def mvkurtosisE {p n : ℕ} (arr : Matrix (Fin p) (Fin n) ℝ)
    (lamb : Fin p → ℝ) (v : Matrix (Fin p) (Fin p) ℝ) : Except MVError ℝ :=
  if mvEigRaises p n then Except.error MVError.linAlgError
  else Except.ok (mvkurtosis arr lamb v)

/-- Outcome of `mvskewness`, with the error channel of the pipeline explicit
(same shape-driven `LinAlgError` cases as for `mvkurtosisE`). -/
noncomputable def mvskewnessE {p n : ℕ} (arr : Matrix (Fin p) (Fin n) ℝ)
    (lamb : Fin p → ℝ) (v : Matrix (Fin p) (Fin p) ℝ) : Except MVError ℝ :=
  if mvEigRaises p n then Except.error MVError.linAlgError
  else Except.ok (mvskewness arr lamb v)

/-! ### Helper lemmas about pyInt -/

theorem pyInt_of_nonneg {q : ℚ} (h : 0 ≤ q) : pyInt q = ⌊q⌋ := by
  simp [pyInt, not_lt.mpr h]

theorem pyInt_of_neg {q : ℚ} (h : q < 0) : pyInt q = ⌈q⌉ := by
  simp [pyInt, h]

theorem pyInt_nonpos_of_neg {q : ℚ} (h : q < 0) : pyInt q ≤ 0 := by
  rw [pyInt_of_neg h]
  exact Int.ceil_le.mpr (by exact_mod_cast h.le)

/-! ### C1 / C8 / C9 : characterize_baseline -/

/-- C1: for `beg ≥ 0`, `end ≥ beg` and a window shorter than `BL_MIN_LEN`,
`characterize_baseline` requests the fragment given by `characterize_window`;
its end is the floor of `center + L/2` (re-centered on the original midpoint,
not clamped), its start is never negative, and whenever `center - L/2` is
nonnegative the start is the floor of `center - L/2` and the requested length
is exactly `L`; when `center - L/2` is negative the start is clamped to 0. -/
theorem characterize_baseline_short_window (L beg e : ℤ)
    (hb : 0 ≤ beg) (he : beg ≤ e) (hshort : e - beg < L) :
    characterize_baseline_request L beg e = some (characterize_window L beg e) ∧
    0 ≤ (characterize_window L beg e).1 ∧
    (((characterize_window L beg e).2 : ℚ) ≤ blCenter beg e + (L : ℚ) / 2 ∧
      blCenter beg e + (L : ℚ) / 2 < (characterize_window L beg e).2 + 1) ∧
    (0 ≤ blCenter beg e - (L : ℚ) / 2 →
      (characterize_window L beg e).2 - (characterize_window L beg e).1 = L ∧
      ((characterize_window L beg e).1 : ℚ) ≤ blCenter beg e - (L : ℚ) / 2 ∧
      blCenter beg e - (L : ℚ) / 2 < (characterize_window L beg e).1 + 1) ∧
    (blCenter beg e - (L : ℚ) / 2 < 0 → (characterize_window L beg e).1 = 0) := by
  have hwin : characterize_window L beg e =
      (max 0 (pyInt (blCenter beg e - (L : ℚ) / 2)),
       pyInt (blCenter beg e + (L : ℚ) / 2)) := by
    rw [characterize_window, if_pos hshort]
  have hc0 : 0 ≤ blCenter beg e := by
    have h1 : (0 : ℚ) ≤ (beg : ℚ) := by exact_mod_cast hb
    have h2 : (beg : ℚ) ≤ (e : ℚ) := by exact_mod_cast he
    unfold blCenter; linarith
  have hL1 : (1 : ℤ) ≤ L := by omega
  have hLq : (1 : ℚ) ≤ (L : ℚ) := by exact_mod_cast hL1
  have hhi : (0 : ℚ) ≤ blCenter beg e + (L : ℚ) / 2 := by linarith
  have hend : pyInt (blCenter beg e + (L : ℚ) / 2) = ⌊blCenter beg e + (L : ℚ) / 2⌋ :=
    pyInt_of_nonneg hhi
  refine ⟨?_, ?_, ⟨?_, ?_⟩, ?_, ?_⟩
  · rw [characterize_baseline_request, if_pos ⟨hb, he⟩]
  · rw [hwin]; exact le_max_left 0 _
  · rw [hwin]; simpa [hend] using Int.floor_le (blCenter beg e + (L : ℚ) / 2)
  · rw [hwin]; simp [hend]
  · intro hlo
    have hbeg : pyInt (blCenter beg e - (L : ℚ) / 2) = ⌊blCenter beg e - (L : ℚ) / 2⌋ :=
      pyInt_of_nonneg hlo
    have hfl0 : 0 ≤ ⌊blCenter beg e - (L : ℚ) / 2⌋ := Int.le_floor.mpr (by exact_mod_cast hlo)
    have hmax : max 0 (pyInt (blCenter beg e - (L : ℚ) / 2)) =
        ⌊blCenter beg e - (L : ℚ) / 2⌋ := by
      rw [hbeg]; exact max_eq_right hfl0
    refine ⟨?_, ?_, ?_⟩
    · rw [hwin]
      show pyInt (blCenter beg e + (L : ℚ) / 2) - max 0 (pyInt (blCenter beg e - (L : ℚ) / 2)) = L
      rw [hend, hmax]
      have hsplit : blCenter beg e + (L : ℚ) / 2 = (blCenter beg e - (L : ℚ) / 2) + (L : ℚ) := by
        ring
      rw [hsplit, Int.floor_add_int]
      omega
    · rw [hwin]
      show ((max 0 (pyInt (blCenter beg e - (L : ℚ) / 2)) : ℤ) : ℚ) ≤ _
      rw [hmax]
      exact Int.floor_le _
    · rw [hwin]
      show blCenter beg e - (L : ℚ) / 2 < ((max 0 (pyInt (blCenter beg e - (L : ℚ) / 2)) : ℤ) : ℚ) + 1
      rw [hmax]
      exact Int.lt_floor_add_one _
  · intro hlo
    rw [hwin]
    show max 0 (pyInt (blCenter beg e - (L : ℚ) / 2)) = 0
    exact max_eq_left (pyInt_nonpos_of_neg hlo)

/-- Witness for C1 at `L = 4`, `beg = 0`, `end = 1` (the midpoint is 1/2, the
raw start 1/2 - 2 is negative, so the start is clamped to 0). -/
theorem characterize_baseline_short_window_witness :
    ((0 : ℤ) ≤ 0 ∧ (0 : ℤ) ≤ 1 ∧ (1 : ℤ) - 0 < 4) ∧
    (characterize_baseline_request 4 0 1 = some (characterize_window 4 0 1) ∧
    0 ≤ (characterize_window 4 0 1).1 ∧
    (((characterize_window 4 0 1).2 : ℚ) ≤ blCenter 0 1 + (4 : ℚ) / 2 ∧
      blCenter 0 1 + (4 : ℚ) / 2 < (characterize_window 4 0 1).2 + 1) ∧
    (0 ≤ blCenter 0 1 - (4 : ℚ) / 2 →
      (characterize_window 4 0 1).2 - (characterize_window 4 0 1).1 = 4 ∧
      ((characterize_window 4 0 1).1 : ℚ) ≤ blCenter 0 1 - (4 : ℚ) / 2 ∧
      blCenter 0 1 - (4 : ℚ) / 2 < (characterize_window 4 0 1).1 + 1) ∧
    (blCenter 0 1 - (4 : ℚ) / 2 < 0 → (characterize_window 4 0 1).1 = 0)) :=
  ⟨⟨by norm_num, by norm_num, by norm_num⟩,
   characterize_baseline_short_window 4 0 1 (by norm_num) (by norm_num) (by norm_num)⟩

/-- C9: under the assertion preconditions the range actually requested from
the fragment source is always well formed: nonnegative start, start at most
end, in both the expanded and the unexpanded branch. -/
theorem characterize_window_valid_range (L beg e : ℤ) (hb : 0 ≤ beg) (he : beg ≤ e) :
    characterize_baseline_request L beg e = some (characterize_window L beg e) ∧
    0 ≤ (characterize_window L beg e).1 ∧
    (characterize_window L beg e).1 ≤ (characterize_window L beg e).2 := by
  refine ⟨by rw [characterize_baseline_request, if_pos ⟨hb, he⟩], ?_, ?_⟩ <;>
    rw [characterize_window] <;> split
  · exact le_max_left 0 _
  · exact hb
  · rename_i hshort
    have hc0 : 0 ≤ blCenter beg e := by
      have h1 : (0 : ℚ) ≤ (beg : ℚ) := by exact_mod_cast hb
      have h2 : (beg : ℚ) ≤ (e : ℚ) := by exact_mod_cast he
      unfold blCenter; linarith
    have hL1 : (1 : ℤ) ≤ L := by omega
    have hLq : (1 : ℚ) ≤ (L : ℚ) := by exact_mod_cast hL1
    have hhi : (0 : ℚ) ≤ blCenter beg e + (L : ℚ) / 2 := by linarith
    have hend : pyInt (blCenter beg e + (L : ℚ) / 2) = ⌊blCenter beg e + (L : ℚ) / 2⌋ :=
      pyInt_of_nonneg hhi
    show max 0 (pyInt (blCenter beg e - (L : ℚ) / 2)) ≤ pyInt (blCenter beg e + (L : ℚ) / 2)
    have hend0 : 0 ≤ pyInt (blCenter beg e + (L : ℚ) / 2) := by
      rw [hend]; exact Int.le_floor.mpr (by exact_mod_cast hhi)
    refine max_le hend0 ?_
    rcases lt_or_le (blCenter beg e - (L : ℚ) / 2) 0 with hlo | hlo
    · exact le_trans (pyInt_nonpos_of_neg hlo) hend0
    · rw [pyInt_of_nonneg hlo, hend]
      exact Int.floor_le_floor (by linarith)
  · exact he

/-- Witness for C9 at `L = 5`, `beg = 10`, `end = 11` (expanded branch with no
clamping). -/
theorem characterize_window_valid_range_witness :
    ((0 : ℤ) ≤ 10 ∧ (10 : ℤ) ≤ 11) ∧
    (characterize_baseline_request 5 10 11 = some (characterize_window 5 10 11) ∧
    0 ≤ (characterize_window 5 10 11).1 ∧
    (characterize_window 5 10 11).1 ≤ (characterize_window 5 10 11).2) :=
  ⟨⟨by norm_num, by norm_num⟩,
   characterize_window_valid_range 5 10 11 (by norm_num) (by norm_num)⟩

/-- C8: when `beg < 0` or `end < beg` the assertion at the top of
`characterize_baseline` fires and no fragment request is made (the request is
`none`); the guard precedes the window arithmetic and the fetch. -/
theorem characterize_baseline_invalid_input (L beg e : ℤ) (h : beg < 0 ∨ e < beg) :
    characterize_baseline_request L beg e = none := by
  rw [characterize_baseline_request, if_neg]
  rintro ⟨h1, h2⟩
  rcases h with h | h
  · omega
  · omega

/-- Witness for C8 at `beg = -1`, `end = 0`. -/
theorem characterize_baseline_invalid_input_witness :
    ((-1 : ℤ) < 0 ∨ (0 : ℤ) < -1) ∧ characterize_baseline_request 4 (-1) 0 = none :=
  ⟨Or.inl (by norm_num), characterize_baseline_invalid_input 4 (-1) 0 (Or.inl (by norm_num))⟩

/-! ### Helper lemmas for get_peaks -/

theorem ffill_length (prev : ℤ) (l : List ℤ) : (ffill prev l).length = l.length := by
  induction l generalizing prev with
  | nil => rfl
  | cons a rest ih => simp [ffill, ih]

theorem resolveSigns_length (s : List ℤ) : (resolveSigns s).length = s.length := by
  cases s with
  | nil => rfl
  | cons a rest => simp [resolveSigns, ffill_length]

theorem ffill_getD_nonzero (prev : ℤ) (l : List ℤ) (i : ℕ) (hi : i < l.length)
    (hnz : l.getD i 0 ≠ 0) : (ffill prev l).getD i 0 = l.getD i 0 := by
  induction l generalizing prev i with
  | nil => simp at hi
  | cons a rest ih =>
    cases i with
    | zero =>
      simp only [List.getD_cons_zero] at hnz ⊢
      simp [ffill, hnz]
    | succ j =>
      simp only [List.getD_cons_succ] at hnz ⊢
      simp only [ffill, List.getD_cons_succ]
      exact ih _ j (by simpa using hi) hnz

theorem ffill_getD_zero (prev : ℤ) (l : List ℤ) (i : ℕ) (hi : i < l.length)
    (hz : l.getD i 0 = 0) :
    (ffill prev l).getD i 0 = if i = 0 then prev else (ffill prev l).getD (i - 1) 0 := by
  induction l generalizing prev i with
  | nil => simp at hi
  | cons a rest ih =>
    cases i with
    | zero =>
      simp only [List.getD_cons_zero] at hz
      simp [ffill, hz]
    | succ j =>
      simp only [List.getD_cons_succ] at hz
      simp only [ffill, List.getD_cons_succ, Nat.succ_ne_zero, if_false, Nat.succ_sub_one]
      cases j with
      | zero =>
        rw [ih _ 0 (by simpa using hi) hz]
        simp
      | succ k =>
        rw [ih _ (k + 1) (by simpa using hi) hz]
        simp

theorem diffs_length (l : List ℚ) : (diffs l).length = l.length - 1 := by
  simp [diffs]

theorem changeIndices_mem (r : List ℤ) (i : ℕ) :
    i ∈ changeIndices r ↔ 1 ≤ i ∧ i < r.length ∧ r.getD i 0 ≠ r.getD (i - 1) 0 := by
  simp only [changeIndices, List.mem_filter, List.mem_range, decide_eq_true_eq]
  tauto

theorem changeIndices_sorted (r : List ℤ) : List.Sorted (· < ·) (changeIndices r) :=
  List.Pairwise.sublist (List.filter_sublist _) (List.pairwise_lt_range _)

theorem changeIndices_nodup (r : List ℤ) : (changeIndices r).Nodup :=
  List.Nodup.sublist (List.filter_sublist _) (List.nodup_range _)

/-! ### C4 : zero-derivative folding in get_peaks -/

/-- C4: once the all-zero case is excluded, the resolved sign sequence has the
same length as the raw one, keeps every nonzero sign, resolves a leading zero
to the first nonzero sign that follows, and resolves every later zero to the
immediately preceding resolved value (left to right); consequently
`get_peaks` on `[5,5,5,6,7,5]` reports exactly one peak, at index 4, where
the array turns from rising to falling. -/
theorem resolveSigns_spec (s : List ℤ) (hnz : ∃ a ∈ s, a ≠ 0) :
    (resolveSigns s).length = s.length ∧
    (∀ i < s.length, s.getD i 0 ≠ 0 → (resolveSigns s).getD i 0 = s.getD i 0) ∧
    (s.getD 0 0 = 0 → (resolveSigns s).getD 0 0 = firstNonzeroSign s) ∧
    (∀ i, 1 ≤ i → i < s.length → s.getD i 0 = 0 →
      (resolveSigns s).getD i 0 = (resolveSigns s).getD (i - 1) 0) ∧
    get_peaks [5, 5, 5, 6, 7, 5] = some [4] := by
  refine ⟨resolveSigns_length s, ?_, ?_, ?_, ?_⟩
  · intro i hi hne
    cases s with
    | nil => simp at hi
    | cons a rest =>
      cases i with
      | zero =>
        simp only [List.getD_cons_zero] at hne ⊢
        simp [resolveSigns, hne]
      | succ j =>
        simp only [List.getD_cons_succ] at hne ⊢
        simp only [resolveSigns, List.getD_cons_succ]
        exact ffill_getD_nonzero _ rest j (by simpa using hi) hne
  · intro h0
    cases s with
    | nil => simp [resolveSigns, firstNonzeroSign]
    | cons a rest =>
      simp only [List.getD_cons_zero] at h0
      simp [resolveSigns, h0, firstNonzeroSign, List.find?_cons]
  · intro i h1 hi hz
    cases s with
    | nil => simp at hi
    | cons a rest =>
      cases i with
      | zero => omega
      | succ j =>
        simp only [List.getD_cons_succ] at hz
        simp only [resolveSigns, List.getD_cons_succ, Nat.succ_sub_one]
        rw [ffill_getD_zero _ rest j (by simpa using hi) hz]
        cases j with
        | zero => simp
        | succ k => simp
  · norm_num [get_peaks, diffs, sign, resolveSigns, ffill, firstNonzeroSign,
      changeIndices, List.zipWith, List.range_succ]

/-- Witness for C4 at the sign list `[0, 1]` (leading zero, nonzero present). -/
theorem resolveSigns_spec_witness :
    (∃ a ∈ [(0 : ℤ), 1], a ≠ 0) ∧
    ((resolveSigns [(0 : ℤ), 1]).length = [(0 : ℤ), 1].length ∧
    (∀ i < [(0 : ℤ), 1].length, [(0 : ℤ), 1].getD i 0 ≠ 0 →
      (resolveSigns [(0 : ℤ), 1]).getD i 0 = [(0 : ℤ), 1].getD i 0) ∧
    ([(0 : ℤ), 1].getD 0 0 = 0 →
      (resolveSigns [(0 : ℤ), 1]).getD 0 0 = firstNonzeroSign [(0 : ℤ), 1]) ∧
    (∀ i, 1 ≤ i → i < [(0 : ℤ), 1].length → [(0 : ℤ), 1].getD i 0 = 0 →
      (resolveSigns [(0 : ℤ), 1]).getD i 0 = (resolveSigns [(0 : ℤ), 1]).getD (i - 1) 0) ∧
    get_peaks [5, 5, 5, 6, 7, 5] = some [4]) :=
  ⟨⟨1, by norm_num, by norm_num⟩, resolveSigns_spec [0, 1] ⟨1, by norm_num, by norm_num⟩⟩

/-! ### C5 : the reported peak indices -/

/-- C5: for an array of length at least 3 with a nonzero difference sign,
`get_peaks` returns exactly the indices `i` with `1 ≤ i < len(sdif)` at which
consecutive resolved signs differ, in ascending order without duplicates; on
`[0,1,2,1,0,1,2]` it returns indices 2 and 4. -/
theorem get_peaks_spec (arr : List ℚ) (hlen : 3 ≤ arr.length)
    (hnz : ∃ a ∈ (diffs arr).map sign, a ≠ 0) :
    get_peaks arr = some (changeIndices (resolveSigns ((diffs arr).map sign))) ∧
    (∀ i, i ∈ changeIndices (resolveSigns ((diffs arr).map sign)) ↔
      1 ≤ i ∧ i < (resolveSigns ((diffs arr).map sign)).length ∧
      (resolveSigns ((diffs arr).map sign)).getD i 0 ≠
        (resolveSigns ((diffs arr).map sign)).getD (i - 1) 0) ∧
    (resolveSigns ((diffs arr).map sign)).length = arr.length - 1 ∧
    List.Sorted (· < ·) (changeIndices (resolveSigns ((diffs arr).map sign))) ∧
    (changeIndices (resolveSigns ((diffs arr).map sign))).Nodup ∧
    get_peaks [0, 1, 2, 1, 0, 1, 2] = some [2, 4] := by
  refine ⟨?_, fun i => changeIndices_mem _ i, ?_, changeIndices_sorted _,
    changeIndices_nodup _, ?_⟩
  · rw [get_peaks, if_neg (by omega), if_neg]
    simp only [List.all_eq_true, decide_eq_true_eq, not_forall]
    rcases hnz with ⟨a, ha, hne⟩
    exact ⟨a, ha, hne⟩
  · rw [resolveSigns_length, List.length_map, diffs_length]
  · norm_num [get_peaks, diffs, sign, resolveSigns, ffill, firstNonzeroSign,
      changeIndices, List.zipWith, List.range_succ]

/-- Witness for C5 at the array `[0, 1, 0]`. -/
theorem get_peaks_spec_witness :
    (3 ≤ [(0 : ℚ), 1, 0].length ∧ ∃ a ∈ (diffs [(0 : ℚ), 1, 0]).map sign, a ≠ 0) ∧
    (get_peaks [(0 : ℚ), 1, 0] =
      some (changeIndices (resolveSigns ((diffs [(0 : ℚ), 1, 0]).map sign))) ∧
    (∀ i, i ∈ changeIndices (resolveSigns ((diffs [(0 : ℚ), 1, 0]).map sign)) ↔
      1 ≤ i ∧ i < (resolveSigns ((diffs [(0 : ℚ), 1, 0]).map sign)).length ∧
      (resolveSigns ((diffs [(0 : ℚ), 1, 0]).map sign)).getD i 0 ≠
        (resolveSigns ((diffs [(0 : ℚ), 1, 0]).map sign)).getD (i - 1) 0) ∧
    (resolveSigns ((diffs [(0 : ℚ), 1, 0]).map sign)).length = [(0 : ℚ), 1, 0].length - 1 ∧
    List.Sorted (· < ·) (changeIndices (resolveSigns ((diffs [(0 : ℚ), 1, 0]).map sign))) ∧
    (changeIndices (resolveSigns ((diffs [(0 : ℚ), 1, 0]).map sign))).Nodup ∧
    get_peaks [0, 1, 2, 1, 0, 1, 2] = some [2, 4]) :=
  ⟨⟨by norm_num, ⟨1, by norm_num [diffs, sign, List.zipWith], by norm_num⟩⟩,
   get_peaks_spec [0, 1, 0] (by norm_num)
     ⟨1, by norm_num [diffs, sign, List.zipWith], by norm_num⟩⟩

/-! ### C10 : reported indices are interior -/

/-- C10: every index reported by `get_peaks` on an array of length `n` lies in
`[1, n-2]`; the first and the last position are never reported. -/
theorem get_peaks_interior (arr : List ℚ) (ps : List ℕ) (h : get_peaks arr = some ps) :
    3 ≤ arr.length ∧
    (∀ i ∈ ps, 1 ≤ i ∧ i ≤ arr.length - 2) ∧
    0 ∉ ps ∧ (arr.length - 1) ∉ ps := by
  have hlen : ¬ arr.length < 3 := by
    intro hl
    rw [get_peaks, if_pos hl] at h
    exact Option.noConfusion h
  have hbounds : ∀ i ∈ ps, 1 ≤ i ∧ i ≤ arr.length - 2 := by
    intro i hi
    rw [get_peaks, if_neg hlen] at h
    by_cases hz : ((diffs arr).map sign).all (fun a => decide (a = 0)) = true
    · rw [if_pos hz] at h
      obtain rfl : ([] : List ℕ) = ps := Option.some.inj h
      simp at hi
    · rw [if_neg hz] at h
      obtain rfl : changeIndices (resolveSigns ((diffs arr).map sign)) = ps :=
        Option.some.inj h
      obtain ⟨h1, h2, _⟩ := (changeIndices_mem _ i).mp hi
      rw [resolveSigns_length, List.length_map, diffs_length] at h2
      omega
  refine ⟨by omega, hbounds, ?_, ?_⟩
  · intro h0
    have := (hbounds 0 h0).1
    omega
  · intro hend
    have := (hbounds _ hend).2
    omega

/-- Witness for C10 at the array `[0, 1, 0]`, whose peak list is `[1]`. -/
theorem get_peaks_interior_witness :
    get_peaks [(0 : ℚ), 1, 0] = some [1] ∧
    (3 ≤ [(0 : ℚ), 1, 0].length ∧
    (∀ i ∈ [1], 1 ≤ i ∧ i ≤ [(0 : ℚ), 1, 0].length - 2) ∧
    0 ∉ [1] ∧ ([(0 : ℚ), 1, 0].length - 1) ∉ [1]) :=
  ⟨by norm_num [get_peaks, diffs, sign, resolveSigns, ffill, firstNonzeroSign,
      changeIndices, List.zipWith, List.range_succ],
   get_peaks_interior [0, 1, 0] [1]
     (by norm_num [get_peaks, diffs, sign, resolveSigns, ffill, firstNonzeroSign,
        changeIndices, List.zipWith, List.range_succ])⟩

/-! ### Helper lemmas for mode -/

theorem foldl_min_le (l : List ℚ) (a : ℚ) : l.foldl min a ≤ a := by
  induction l generalizing a with
  | nil => simp
  | cons b rest ih => exact le_trans (ih (min a b)) (min_le_left a b)

theorem le_foldl_max (l : List ℚ) (a : ℚ) : a ≤ l.foldl max a := by
  induction l generalizing a with
  | nil => simp
  | cons b rest ih => exact le_trans (le_max_left a b) (ih (max a b))

theorem listMin_le_listMax (sig : List ℚ) (h : sig ≠ []) : listMin sig ≤ listMax sig := by
  cases sig with
  | nil => exact absurd rfl h
  | cons a rest =>
    exact le_trans (foldl_min_le rest a) (le_foldl_max rest a)

theorem foldl_min_const (v : ℚ) (l : List ℚ) (acc : ℚ)
    (hl : ∀ x ∈ l, x = v) (ha : acc = v) : l.foldl min acc = v := by
  induction l generalizing acc with
  | nil => exact ha
  | cons b rest ih =>
    have hb : b = v := hl b (by simp)
    exact ih (min acc b) (fun x hx => hl x (by simp [hx])) (by simp [ha, hb])

theorem foldl_max_const (v : ℚ) (l : List ℚ) (acc : ℚ)
    (hl : ∀ x ∈ l, x = v) (ha : acc = v) : l.foldl max acc = v := by
  induction l generalizing acc with
  | nil => exact ha
  | cons b rest ih =>
    have hb : b = v := hl b (by simp)
    exact ih (max acc b) (fun x hx => hl x (by simp [hx])) (by simp [ha, hb])

theorem listMin_const (v : ℚ) (sig : List ℚ) (h : sig ≠ [])
    (hall : ∀ x ∈ sig, x = v) : listMin sig = v := by
  cases sig with
  | nil => exact absurd rfl h
  | cons a rest =>
    exact foldl_min_const v rest a (fun x hx => hall x (by simp [hx])) (hall a (by simp))

theorem listMax_const (v : ℚ) (sig : List ℚ) (h : sig ≠ [])
    (hall : ∀ x ∈ sig, x = v) : listMax sig = v := by
  cases sig with
  | nil => exact absurd rfl h
  | cons a rest =>
    exact foldl_max_const v rest a (fun x hx => hall x (by simp [hx])) (hall a (by simp))

theorem argmaxIdx_lt_length (l : List ℕ) (h : l ≠ []) : argmaxIdx l < l.length := by
  induction l with
  | nil => exact absurd rfl h
  | cons a rest ih =>
    simp only [argmaxIdx, List.length_cons]
    split
    · rename_i hlt
      have hrest : rest ≠ [] := by
        intro h0
        subst h0
        simp at hlt
      have := ih hrest
      omega
    · omega

theorem getD_le_argmaxIdx (l : List ℕ) (j : ℕ) : l.getD j 0 ≤ l.getD (argmaxIdx l) 0 := by
  induction l generalizing j with
  | nil => simp
  | cons a rest ih =>
    simp only [argmaxIdx]
    split
    · rename_i hlt
      cases j with
      | zero => simpa using hlt.le
      | succ k => simpa using ih k
    · rename_i hge
      push_neg at hge
      cases j with
      | zero => simp
      | succ k =>
        simp only [List.getD_cons_succ, List.getD_cons_zero]
        exact le_trans (ih k) hge

theorem argmaxIdx_first (l : List ℕ) (j : ℕ) (hj : j < argmaxIdx l) :
    l.getD j 0 < l.getD (argmaxIdx l) 0 := by
  induction l generalizing j with
  | nil => simp [argmaxIdx] at hj
  | cons a rest ih =>
    simp only [argmaxIdx] at hj ⊢
    by_cases hlt : a < rest.getD (argmaxIdx rest) 0
    · rw [if_pos hlt] at hj ⊢
      cases j with
      | zero => simpa using hlt
      | succ k =>
        simp only [List.getD_cons_succ]
        exact ih k (by omega)
    · rw [if_neg hlt] at hj
      omega

/-! ### C3 : the mode algorithm -/

/-- C3: with a positive bin width and a nonempty fragment, the bin count is
the floor of `(max - min) / BL_MARGIN`, replaced by 1 when that floor is 0;
the histogram has that many bins whose edges span `[min, max]` with equal
widths; the selected bin carries a maximal count and every earlier bin a
strictly smaller one (first-occurrence argmax); and the returned value is the
midpoint of the selected bin's two edges. -/
theorem mode_spec (margin : ℚ) (sig : List ℚ) (mn mx : ℚ) (nb : ℕ)
    (counts : List ℕ) (peak : ℕ)
    (hm : 0 < margin) (hne : sig ≠ [])
    (hmn : mn = listMin sig) (hmx : mx = listMax sig)
    (hnb : nb = nbinsOf margin mn mx)
    (hcounts : counts = histCounts mn mx nb sig)
    (hpeak : peak = argmaxIdx counts) :
    (⌊(mx - mn) / margin⌋ = 0 → nb = 1) ∧
    (⌊(mx - mn) / margin⌋ ≠ 0 → (nb : ℤ) = ⌊(mx - mn) / margin⌋) ∧
    counts.length = nb ∧ 1 ≤ nb ∧ peak < nb ∧
    (∀ j, counts.getD j 0 ≤ counts.getD peak 0) ∧
    (∀ j < peak, counts.getD j 0 < counts.getD peak 0) ∧
    histEdge mn mx nb 0 = mn ∧ histEdge mn mx nb nb = mx ∧
    (∀ i, histEdge mn mx nb (i + 1) - histEdge mn mx nb i = (mx - mn) / nb) ∧
    mode margin sig = (histEdge mn mx nb peak + histEdge mn mx nb (peak + 1)) / 2 := by
  have hle : listMin sig ≤ listMax sig := listMin_le_listMax sig hne
  subst hmn hmx hnb hcounts hpeak
  have hq0 : 0 ≤ (listMax sig - listMin sig) / margin := div_nonneg (by linarith) hm.le
  have hpy : pyInt ((listMax sig - listMin sig) / margin) =
      ⌊(listMax sig - listMin sig) / margin⌋ := pyInt_of_nonneg hq0
  have hfl0 : 0 ≤ ⌊(listMax sig - listMin sig) / margin⌋ := Int.floor_nonneg.mpr hq0
  have hnb1 : 1 ≤ nbinsOf margin (listMin sig) (listMax sig) := by
    rw [nbinsOf, hpy]
    split
    · exact le_refl 1
    · rename_i hk
      omega
  have hlen : (histCounts (listMin sig) (listMax sig)
      (nbinsOf margin (listMin sig) (listMax sig)) sig).length =
      nbinsOf margin (listMin sig) (listMax sig) := by
    simp [histCounts]
  have hnbq : ((nbinsOf margin (listMin sig) (listMax sig) : ℚ)) ≠ 0 := by
    have hne0 : nbinsOf margin (listMin sig) (listMax sig) ≠ 0 := by omega
    exact_mod_cast hne0
  refine ⟨?_, ?_, hlen, hnb1, ?_, fun j => getD_le_argmaxIdx _ j,
    fun j hj => argmaxIdx_first _ j hj, ?_, ?_, ?_, ?_⟩
  · intro h0
    rw [nbinsOf, hpy, h0]
    simp
  · intro h0
    rw [nbinsOf, hpy, if_neg h0]
    exact Int.toNat_of_nonneg hfl0
  · have hcne : histCounts (listMin sig) (listMax sig)
        (nbinsOf margin (listMin sig) (listMax sig)) sig ≠ [] := by
      intro h0
      rw [h0] at hlen
      simp at hlen
      omega
    have := argmaxIdx_lt_length _ hcne
    omega
  · simp [histEdge]
  · rw [histEdge]
    field_simp
  · intro i
    rw [histEdge, histEdge]
    have h1 : ((i : ℚ) + 1) = ((i + 1 : ℕ) : ℚ) := by push_cast; ring
    field_simp
    ring
  · rw [mode]
    ring

/-- Witness for C3 at `margin = 1` and the one-sample fragment `[1]`. -/
theorem mode_spec_witness :
    ((0 : ℚ) < 1 ∧ [(1 : ℚ)] ≠ []) ∧
    ((⌊((1 : ℚ) - 1) / 1⌋ = 0 → nbinsOf 1 1 1 = 1) ∧
    (⌊((1 : ℚ) - 1) / 1⌋ ≠ 0 → (nbinsOf 1 1 1 : ℤ) = ⌊((1 : ℚ) - 1) / 1⌋) ∧
    (histCounts 1 1 (nbinsOf 1 1 1) [(1 : ℚ)]).length = nbinsOf 1 1 1 ∧
    1 ≤ nbinsOf 1 1 1 ∧
    argmaxIdx (histCounts 1 1 (nbinsOf 1 1 1) [(1 : ℚ)]) < nbinsOf 1 1 1 ∧
    (∀ j, (histCounts 1 1 (nbinsOf 1 1 1) [(1 : ℚ)]).getD j 0 ≤
      (histCounts 1 1 (nbinsOf 1 1 1) [(1 : ℚ)]).getD
        (argmaxIdx (histCounts 1 1 (nbinsOf 1 1 1) [(1 : ℚ)])) 0) ∧
    (∀ j < argmaxIdx (histCounts 1 1 (nbinsOf 1 1 1) [(1 : ℚ)]),
      (histCounts 1 1 (nbinsOf 1 1 1) [(1 : ℚ)]).getD j 0 <
      (histCounts 1 1 (nbinsOf 1 1 1) [(1 : ℚ)]).getD
        (argmaxIdx (histCounts 1 1 (nbinsOf 1 1 1) [(1 : ℚ)])) 0) ∧
    histEdge 1 1 (nbinsOf 1 1 1) 0 = 1 ∧
    histEdge 1 1 (nbinsOf 1 1 1) (nbinsOf 1 1 1) = 1 ∧
    (∀ i, histEdge 1 1 (nbinsOf 1 1 1) (i + 1) - histEdge 1 1 (nbinsOf 1 1 1) i =
      ((1 : ℚ) - 1) / (nbinsOf 1 1 1)) ∧
    mode 1 [(1 : ℚ)] =
      (histEdge 1 1 (nbinsOf 1 1 1) (argmaxIdx (histCounts 1 1 (nbinsOf 1 1 1) [(1 : ℚ)])) +
       histEdge 1 1 (nbinsOf 1 1 1)
         (argmaxIdx (histCounts 1 1 (nbinsOf 1 1 1) [(1 : ℚ)]) + 1)) / 2) :=
  ⟨⟨by norm_num, by simp⟩,
   mode_spec 1 [(1 : ℚ)] 1 1 (nbinsOf 1 1 1) (histCounts 1 1 (nbinsOf 1 1 1) [(1 : ℚ)])
     (argmaxIdx (histCounts 1 1 (nbinsOf 1 1 1) [(1 : ℚ)]))
     (by norm_num) (by simp) rfl rfl rfl rfl rfl⟩

/-! ### C7 : mode of a constant fragment -/

/-- C7: on a nonempty fragment all of whose samples equal a constant `v`,
`mode` returns `v` (for any bin width, including the degenerate single-bin
histogram with zero-width range). -/
theorem mode_constant (margin : ℚ) (sig : List ℚ) (v : ℚ) (hne : sig ≠ [])
    (hall : ∀ x ∈ sig, x = v) : mode margin sig = v := by
  have hmin : listMin sig = v := listMin_const v sig hne hall
  have hmax : listMax sig = v := listMax_const v sig hne hall
  rw [mode]
  rw [hmin, hmax]
  simp [histEdge]

/-- Witness for C7 at the fragment `[3, 3]` with `margin = 1`. -/
theorem mode_constant_witness :
    ([(3 : ℚ), 3] ≠ [] ∧ (∀ x ∈ [(3 : ℚ), 3], x = 3)) ∧ mode 1 [(3 : ℚ), 3] = 3 :=
  ⟨⟨by simp, by simp⟩, mode_constant 1 [(3 : ℚ), 3] 3 (by simp) (by simp)⟩
/-! ### C6 : the whitening-based multivariate moments -/

/-- C6 (amended: at least two variables and two observations, so that the
`np.linalg.eig` call does not raise): under a genuine eigendecomposition of
the positive-definite population covariance (orthogonal `v`, positive
eigenvalues), the factor `si12 = v * diag(1/sqrt(lamb)) * vᵀ` is a symmetric
inverse square root of the covariance (`si12 * S * si12 = 1`), and both
pipeline functions return (no error) the stated functions of the Gram matrix
`R` of the whitened observations: kurtosis the sum of squared diagonal
entries of `R` over `n`, skewness the sum of cubes of all entries of `R`
over `n²`. -/
theorem mv_moments_whitening {p n : ℕ} (arr : Matrix (Fin p) (Fin n) ℝ)
    (lamb : Fin p → ℝ) (v : Matrix (Fin p) (Fin p) ℝ)
    (hp : 2 ≤ p) (hn : 2 ≤ n)
    (hdecomp : covPop arr = v * Matrix.diagonal lamb * vᵀ)
    (horth : vᵀ * v = 1)
    (hpos : ∀ i, 0 < lamb i) :
    (si12 lamb v)ᵀ = si12 lamb v ∧
    si12 lamb v * covPop arr * si12 lamb v = 1 ∧
    mvkurtosisE arr lamb v = Except.ok ((∑ i, (gramR arr lamb v i i) ^ 2) / n) ∧
    mvskewnessE arr lamb v = Except.ok ((∑ i, ∑ j, (gramR arr lamb v i j) ^ 3) / (n * n)) := by
  have hvvt : v * vᵀ = 1 := Matrix.mul_eq_one_comm.mp horth
  have hno : ¬ mvEigRaises p n := by
    unfold mvEigRaises
    omega
  have hdiag : Matrix.diagonal (fun i => (Real.sqrt (lamb i))⁻¹) *
      (Matrix.diagonal lamb * Matrix.diagonal (fun i => (Real.sqrt (lamb i))⁻¹)) = 1 := by
    rw [Matrix.diagonal_mul_diagonal, Matrix.diagonal_mul_diagonal]
    have hfun : (fun i => (Real.sqrt (lamb i))⁻¹ * (lamb i * (Real.sqrt (lamb i))⁻¹)) =
        fun _ : Fin p => (1 : ℝ) := by
      funext i
      have h0 := hpos i
      have hs : Real.sqrt (lamb i) ≠ 0 := ne_of_gt (Real.sqrt_pos.mpr h0)
      field_simp
    rw [hfun, Matrix.diagonal_one]
  refine ⟨?_, ?_, ?_, ?_⟩
  · rw [si12]
    simp only [Matrix.transpose_mul, Matrix.diagonal_transpose, Matrix.transpose_transpose,
      Matrix.mul_assoc]
  · rw [hdecomp, si12]
    have key : ∀ X : Matrix (Fin p) (Fin p) ℝ, vᵀ * (v * X) = X := fun X => by
      rw [← Matrix.mul_assoc, horth, Matrix.one_mul]
    simp only [Matrix.mul_assoc]
    rw [key, key]
    have hmid : Matrix.diagonal (fun i => (Real.sqrt (lamb i))⁻¹) *
        (Matrix.diagonal lamb * (Matrix.diagonal (fun i => (Real.sqrt (lamb i))⁻¹) * vᵀ)) =
        vᵀ := by
      rw [← Matrix.mul_assoc (Matrix.diagonal lamb), ← Matrix.mul_assoc, hdiag,
        Matrix.one_mul]
    rw [hmid, hvvt]
  · rw [mvkurtosisE, if_neg hno, mvkurtosis]
  · rw [mvskewnessE, if_neg hno, mvskewness]

/-- Witness for C6: two variables over four observations,
`[[0,0,2,2],[0,2,0,2]]`, whose population covariance is the identity, with
its trivial eigendecomposition. -/
theorem mv_moments_whitening_witness :
    ((2 ≤ 2 ∧ 2 ≤ 4) ∧
     covPop (Matrix.of ![![(0 : ℝ), 0, 2, 2], ![0, 2, 0, 2]]) =
      (1 : Matrix (Fin 2) (Fin 2) ℝ) * Matrix.diagonal (fun _ : Fin 2 => (1 : ℝ)) *
        (1 : Matrix (Fin 2) (Fin 2) ℝ)ᵀ ∧
     (1 : Matrix (Fin 2) (Fin 2) ℝ)ᵀ * 1 = 1 ∧
     (∀ i : Fin 2, 0 < (fun _ : Fin 2 => (1 : ℝ)) i)) ∧
    ((si12 (fun _ : Fin 2 => (1 : ℝ)) 1)ᵀ = si12 (fun _ : Fin 2 => (1 : ℝ)) 1 ∧
     si12 (fun _ : Fin 2 => (1 : ℝ)) 1 *
       covPop (Matrix.of ![![(0 : ℝ), 0, 2, 2], ![0, 2, 0, 2]]) *
       si12 (fun _ : Fin 2 => (1 : ℝ)) 1 = 1 ∧
     mvkurtosisE (Matrix.of ![![(0 : ℝ), 0, 2, 2], ![0, 2, 0, 2]]) (fun _ : Fin 2 => (1 : ℝ)) 1 =
       Except.ok ((∑ i, (gramR (Matrix.of ![![(0 : ℝ), 0, 2, 2], ![0, 2, 0, 2]])
         (fun _ : Fin 2 => (1 : ℝ)) 1 i i) ^ 2) / ((4 : ℕ) : ℝ)) ∧
     mvskewnessE (Matrix.of ![![(0 : ℝ), 0, 2, 2], ![0, 2, 0, 2]]) (fun _ : Fin 2 => (1 : ℝ)) 1 =
       Except.ok ((∑ i, ∑ j, (gramR (Matrix.of ![![(0 : ℝ), 0, 2, 2], ![0, 2, 0, 2]])
         (fun _ : Fin 2 => (1 : ℝ)) 1 i j) ^ 3) / (((4 : ℕ) : ℝ) * ((4 : ℕ) : ℝ)))) := by
  have hdecomp : covPop (Matrix.of ![![(0 : ℝ), 0, 2, 2], ![0, 2, 0, 2]]) =
      (1 : Matrix (Fin 2) (Fin 2) ℝ) * Matrix.diagonal (fun _ : Fin 2 => (1 : ℝ)) *
        (1 : Matrix (Fin 2) (Fin 2) ℝ)ᵀ := by
    ext i j
    fin_cases i <;> fin_cases j <;>
      simp [covPop, med, Fin.sum_univ_four, Matrix.one_apply] <;> norm_num
  exact ⟨⟨⟨le_refl 2, by norm_num⟩, hdecomp, by simp, fun i => one_pos⟩,
    mv_moments_whitening (Matrix.of ![![(0 : ℝ), 0, 2, 2], ![0, 2, 0, 2]])
      (fun _ : Fin 2 => (1 : ℝ)) 1 (le_refl 2) (by norm_num) hdecomp (by simp)
      (fun i => one_pos)⟩

/-- Counterexample to C6 as stated: the single-variable input `[[0, 2]]` has
positive-definite population covariance (the 1-by-1 identity, eigenvalue 1),
which the claim's quantification includes, yet the pipeline raises
`LinAlgError` at `np.linalg.eig` — `np.cov` squeezes the 1-by-1 covariance to
a 0-dimensional array — so neither moment equals the claimed Gram-matrix
formula: no value is returned at all. -/
theorem mv_moments_single_variable_counterexample :
    covPop (Matrix.of ![![(0 : ℝ), 2]]) =
      (1 : Matrix (Fin 1) (Fin 1) ℝ) * Matrix.diagonal (fun _ : Fin 1 => (1 : ℝ)) *
        (1 : Matrix (Fin 1) (Fin 1) ℝ)ᵀ ∧
    (∀ i : Fin 1, 0 < (fun _ : Fin 1 => (1 : ℝ)) i) ∧
    mvkurtosisE (Matrix.of ![![(0 : ℝ), 2]]) (fun _ : Fin 1 => (1 : ℝ)) 1 =
      Except.error MVError.linAlgError ∧
    mvskewnessE (Matrix.of ![![(0 : ℝ), 2]]) (fun _ : Fin 1 => (1 : ℝ)) 1 =
      Except.error MVError.linAlgError := by
  refine ⟨?_, fun i => one_pos, ?_, ?_⟩
  · ext i j
    fin_cases i
    fin_cases j
    simp [covPop, med, Fin.sum_univ_two, Matrix.one_apply]
    norm_num
  · simp [mvkurtosisE, mvEigRaises]
  · simp [mvskewnessE, mvEigRaises]

/-! ### C2 : no NumericalInstability error is ever raised -/

/-- C2 (amended): the source performs no singularity detection and has no
`NumericalInstability` failure.  With at least two variables and two
observations, under any eigendecomposition of a singular covariance matrix
some eigenvalue is zero, so the whitening scale `1 / sqrt(lamb)` divides by
`sqrt 0 = 0` (in IEEE arithmetic the point where Inf/NaN enters), yet both
functions terminate with an ordinary returned value; the only error the
pipeline can raise is `numpy`'s `LinAlgError` on degenerate shapes
(`p = 1` or `n <= 1`), not the specification's `NumericalInstability`. -/
theorem mv_singular_no_error {p n : ℕ} (arr : Matrix (Fin p) (Fin n) ℝ)
    (lamb : Fin p → ℝ) (v : Matrix (Fin p) (Fin p) ℝ)
    (hp : 2 ≤ p) (hn : 2 ≤ n)
    (hdecomp : covPop arr = v * Matrix.diagonal lamb * vᵀ)
    (horth : vᵀ * v = 1)
    (hsing : (covPop arr).det = 0) :
    (∃ i, lamb i = 0 ∧ Real.sqrt (lamb i) = 0) ∧
    mvkurtosisE arr lamb v = Except.ok (mvkurtosis arr lamb v) ∧
    mvskewnessE arr lamb v = Except.ok (mvskewness arr lamb v) := by
  have hno : ¬ mvEigRaises p n := by
    unfold mvEigRaises
    omega
  refine ⟨?_, by rw [mvkurtosisE, if_neg hno], by rw [mvskewnessE, if_neg hno]⟩
  have hdet : (covPop arr).det = v.det * (∏ i, lamb i) * v.det := by
    rw [hdecomp, Matrix.det_mul, Matrix.det_mul, Matrix.det_diagonal, Matrix.det_transpose]
  have hv2 : v.det * v.det = 1 := by
    have hdet1 := congrArg Matrix.det horth
    rwa [Matrix.det_mul, Matrix.det_transpose, Matrix.det_one] at hdet1
  have hprod : (∏ i, lamb i) = 0 := by
    have h0 : v.det * (∏ i, lamb i) * v.det = 0 := by rw [← hdet]; exact hsing
    have h1 : (∏ i, lamb i) * (v.det * v.det) = v.det * (∏ i, lamb i) * v.det := by ring
    have h2 : (∏ i, lamb i) * (v.det * v.det) = 0 := by rw [h1, h0]
    rwa [hv2, mul_one] at h2
  obtain ⟨i, _, hi⟩ := Finset.prod_eq_zero_iff.mp hprod
  exact ⟨i, hi, by rw [hi, Real.sqrt_zero]⟩

/-- Witness for the amended C2: two variables over two observations,
`[[0, 2], [5, 5]]` — the second variable is constant, so the population
covariance `diag(1, 0)` is singular, with its genuine eigendecomposition
(eigenvalues 1 and 0, eigenvector matrix the identity). -/
theorem mv_singular_no_error_witness :
    ((2 ≤ 2 ∧ 2 ≤ 2) ∧
     covPop (Matrix.of ![![(0 : ℝ), 2], ![5, 5]]) =
      (1 : Matrix (Fin 2) (Fin 2) ℝ) * Matrix.diagonal ![(1 : ℝ), 0] *
        (1 : Matrix (Fin 2) (Fin 2) ℝ)ᵀ ∧
     (1 : Matrix (Fin 2) (Fin 2) ℝ)ᵀ * 1 = 1 ∧
     (covPop (Matrix.of ![![(0 : ℝ), 2], ![5, 5]])).det = 0) ∧
    ((∃ i, (![(1 : ℝ), 0]) i = 0 ∧ Real.sqrt ((![(1 : ℝ), 0]) i) = 0) ∧
     mvkurtosisE (Matrix.of ![![(0 : ℝ), 2], ![5, 5]]) ![(1 : ℝ), 0] 1 =
       Except.ok (mvkurtosis (Matrix.of ![![(0 : ℝ), 2], ![5, 5]]) ![(1 : ℝ), 0] 1) ∧
     mvskewnessE (Matrix.of ![![(0 : ℝ), 2], ![5, 5]]) ![(1 : ℝ), 0] 1 =
       Except.ok (mvskewness (Matrix.of ![![(0 : ℝ), 2], ![5, 5]]) ![(1 : ℝ), 0] 1)) := by
  have hdecomp : covPop (Matrix.of ![![(0 : ℝ), 2], ![5, 5]]) =
      (1 : Matrix (Fin 2) (Fin 2) ℝ) * Matrix.diagonal ![(1 : ℝ), 0] *
        (1 : Matrix (Fin 2) (Fin 2) ℝ)ᵀ := by
    ext i j
    fin_cases i <;> fin_cases j <;>
      norm_num [covPop, med, Fin.sum_univ_two, Matrix.diagonal, Matrix.one_apply]
  have hsing : (covPop (Matrix.of ![![(0 : ℝ), 2], ![5, 5]])).det = 0 := by
    rw [Matrix.det_fin_two]
    simp [covPop, med, Fin.sum_univ_two]
  exact ⟨⟨⟨le_refl 2, le_refl 2⟩, hdecomp, by simp, hsing⟩,
    mv_singular_no_error (Matrix.of ![![(0 : ℝ), 2], ![5, 5]]) ![(1 : ℝ), 0] 1
      (le_refl 2) (le_refl 2) hdecomp (by simp) hsing⟩

/-- Counterexample to C2 as stated: the input `[[0, 2], [5, 5]]` (two
variables, one of them constant) has singular population covariance, yet
neither `mvkurtosis` nor `mvskewness` fails with a `NumericalInstability`
error — both terminate with ordinary values, the source having no singularity
check at all. -/
theorem mv_no_instability_counterexample :
    (covPop (Matrix.of ![![(0 : ℝ), 2], ![5, 5]])).det = 0 ∧
    mvkurtosisE (Matrix.of ![![(0 : ℝ), 2], ![5, 5]]) ![(1 : ℝ), 0] 1 ≠
      Except.error MVError.numericalInstability ∧
    mvskewnessE (Matrix.of ![![(0 : ℝ), 2], ![5, 5]]) ![(1 : ℝ), 0] 1 ≠
      Except.error MVError.numericalInstability := by
  have hno : ¬ mvEigRaises 2 2 := by
    unfold mvEigRaises
    omega
  refine ⟨?_, ?_, ?_⟩
  · rw [Matrix.det_fin_two]
    simp [covPop, med, Fin.sum_univ_two]
  · rw [mvkurtosisE, if_neg hno]
    exact fun h => Except.noConfusion h
  · rw [mvskewnessE, if_neg hno]
    exact fun h => Except.noConfusion h

end SignalMeasures
